import Mathlib

set_option maxRecDepth 100000

/-!
Verification development for pixpix (`src/main.rs`), an image-to-terminal-art
renderer.  The source is shallowly embedded: pure Rust functions become Lean
functions.  `u8`/`u32` quantities are modeled as `ℕ`; the one place where the
source's wrapping `u32` subtraction is itself under scrutiny (the reserved-row
subtraction in `main`) is modeled with an explicit `% 2 ^ 32`.  The `f64`
arithmetic inside `otsu_threshold` is modeled as exact `ℚ` arithmetic; every
fact proved about it below is insensitive to rounding (ranges of the returned
`u8`, and argmax selection among candidates whose scores are either equal by
symmetry or separated exactly).
-/

namespace Pixpix

/-! ## Histogram and threshold selector (src/main.rs, `otsu_threshold`) -/

/-- Total pixel count of a 256-bucket histogram:
`hist.iter().sum::<u32>()` in the source. -/
def histTotal (hist : ℕ → ℕ) : ℕ := ∑ i ∈ Finset.range 256, hist i

/-- `cumulative_sum[t]` in the source: prefix sum of the histogram through
bucket `t` inclusive. -/
def cumulativeSum (hist : ℕ → ℕ) (t : ℕ) : ℕ := ∑ i ∈ Finset.range (t + 1), hist i

/-- `sum_total` in the source: sum of `i * hist[i]` over all 256 buckets. -/
def sumTotal (hist : ℕ → ℕ) : ℕ := ∑ i ∈ Finset.range 256, i * hist i

/-- `sum_w0` in the source: sum of `i * hist[i]` over buckets strictly below
the candidate split point `t` (the slice `hist[..t]`). -/
def sumW0 (hist : ℕ → ℕ) (t : ℕ) : ℕ := ∑ i ∈ Finset.range t, i * hist i

/-- `w0` in the source: `cumulative_sum[t] as f64 / total_pixels`. -/
def w0Q (hist : ℕ → ℕ) (t : ℕ) : ℚ :=
  (cumulativeSum hist t : ℚ) / (histTotal hist : ℚ)

/-- `w1` in the source:
`(cumulative_sum[255] - cumulative_sum[t]) as f64 / total_pixels`. -/
def w1Q (hist : ℕ → ℕ) (t : ℕ) : ℚ :=
  ((cumulativeSum hist 255 - cumulativeSum hist t : ℕ) : ℚ) / (histTotal hist : ℚ)

/-- The between-class score `sigma = w0 * w1 * (u1 - u0).powi(2)` computed in
the body of the loop of `otsu_threshold`, with
`u0 = sum_w0 as f64 / w0` and `u1 = (sum_total - sum_w0) as f64 / w1`. -/
def sigmaAt (hist : ℕ → ℕ) (t : ℕ) : ℚ :=
  let u0 : ℚ := (sumW0 hist t : ℚ) / w0Q hist t
  let u1 : ℚ := ((sumTotal hist - sumW0 hist t : ℕ) : ℚ) / w1Q hist t
  w0Q hist t * w1Q hist t * (u1 - u0) ^ 2

/-- A candidate split point is processed (not skipped by `continue`) exactly
when neither class weight is zero: the source tests `w0 == 0.0 || w1 == 0.0`. -/
def qualifies (hist : ℕ → ℕ) (t : ℕ) : Prop :=
  ¬(w0Q hist t = 0 ∨ w1Q hist t = 0)

instance (hist : ℕ → ℕ) (t : ℕ) : Decidable (qualifies hist t) :=
  inferInstanceAs (Decidable ¬(w0Q hist t = 0 ∨ w1Q hist t = 0))

/-- One iteration of the loop `for t in 1u8..255` of `otsu_threshold`,
threading the mutable state `(max_sigma, threshold)`. -/
def otsuStep (hist : ℕ → ℕ) (s : ℚ × ℕ) (t : ℕ) : ℚ × ℕ :=
  if w0Q hist t = 0 ∨ w1Q hist t = 0 then s
  else if s.1 < sigmaAt hist t then (sigmaAt hist t, t) else s

/-- The candidate split points scanned by `for t in 1u8..255`: 1 through 254. -/
def candidateList : List ℕ := List.range' 1 254

/-- The state `(max_sigma, threshold)` after the whole loop of
`otsu_threshold`, starting from `(0.0, 0u8)`. -/
def otsuFold (hist : ℕ → ℕ) : ℚ × ℕ :=
  candidateList.foldl (otsuStep hist) ((0 : ℚ), (0 : ℕ))

/-- `otsu_threshold` from the source: loop over candidates, then the final
floor `if threshold == 0 { 1 } else { threshold }`. -/
def otsu_threshold (hist : ℕ → ℕ) : ℕ :=
  if (otsuFold hist).2 = 0 then 1 else (otsuFold hist).2

/-- Number of pixels with luma strictly below `t` (used by the claim-side
reading of the selector, where classes are `< t` versus `≥ t`). -/
def countBelow (hist : ℕ → ℕ) (t : ℕ) : ℕ := ∑ i ∈ Finset.range t, hist i

/-- One loop iteration of the threshold selector as the specification words
it: `w0` is the fraction of pixels with luma strictly less than `t`,
`w1 = 1 - w0`, and `u0`, `u1` are the true class means (weighted class sum
divided by class count).  This definition follows the claim text, for
comparison against the source-derived `otsuStep`. -/
def otsuStepSpec (hist : ℕ → ℕ) (s : ℚ × ℕ) (t : ℕ) : ℚ × ℕ :=
  let w0 : ℚ := (countBelow hist t : ℚ) / (histTotal hist : ℚ)
  let w1 : ℚ := 1 - w0
  if w0 = 0 ∨ w1 = 0 then s
  else
    let u0 : ℚ := (sumW0 hist t : ℚ) / (countBelow hist t : ℚ)
    let u1 : ℚ := ((sumTotal hist - sumW0 hist t : ℕ) : ℚ)
        / ((histTotal hist - countBelow hist t : ℕ) : ℚ)
    let sigma : ℚ := w0 * w1 * (u1 - u0) ^ 2
    if s.1 < sigma then (sigma, t) else s

/-- Threshold selector as the specification words it (strictly-below class
weights and true class means), with the same candidate range and final floor
as the source.  Used only to compare the claim text against the source. -/
def otsu_threshold_spec (hist : ℕ → ℕ) : ℕ :=
  let r := candidateList.foldl (otsuStepSpec hist) ((0 : ℚ), (0 : ℕ))
  if r.2 = 0 then 1 else r.2

/-- Histogram of a perfectly bimodal image: `a` pixels at luma 0 and `b`
pixels at luma 255. -/
def bimodalHist (a b : ℕ) : ℕ → ℕ :=
  fun i => if i = 0 then a else if i = 255 then b else 0

/-- Concrete histogram separating the source selector from the claim text:
one pixel at luma 254 and one at luma 255. -/
def exHist : ℕ → ℕ := fun i => if i = 254 then 1 else if i = 255 then 1 else 0

/-! ## Terminal grid planner (src/main.rs, `main`, lines 78-93) -/

/-- The fixed number of terminal rows reserved for surrounding UI:
the literal `2` in `let rows = u32::from(rows) - 2;`. -/
def reservedRows : ℕ := 2

/-- The reserved-row subtraction `u32::from(rows) - 2`, with the wrapping
`u32` semantics made explicit (`% 2 ^ 32`). -/
def rowsAfterReserve (r : ℕ) : ℕ := (r + 2 ^ 32 - reservedRows) % 2 ^ 32

/-- The aspect-preserving fit from `main`:
`if rows * 2 * width < columns * height { (rows * 2 * width / height, rows) }
else { (columns, columns * height / width / 2) }`.
Arithmetic is exact (the in-range case of `u32`; on overflow the source's
debug build panics and returns nothing). -/
def plannedGrid (columns rows width height : ℕ) : ℕ × ℕ :=
  if rows * 2 * width < columns * height then (rows * 2 * width / height, rows)
  else (columns, columns * height / width / 2)

/-- `let unit_width = width / columns;` in the source. -/
def unit_width (width columns : ℕ) : ℕ := width / columns

/-- `let unit_height = height / (rows * 2);` in the source. -/
def unit_height (height rows : ℕ) : ℕ := height / (rows * 2)

/-- The cluster-count argument to the superpixel clustering step:
`let k = columns * rows * 2;` computed from the planned grid. -/
def clusterK (columns rows width height : ℕ) : ℕ :=
  (plannedGrid columns rows width height).1 * (plannedGrid columns rows width height).2 * 2

/-- Dimensions of the sampled image `ImageBuffer::from_fn(columns, 2 * rows, ...)`
built from the planned grid. -/
def sampledDims (columns rows width height : ℕ) : ℕ × ℕ :=
  ((plannedGrid columns rows width height).1, 2 * (plannedGrid columns rows width height).2)

/-- Sample x-coordinate `unit_width / 2 + x * width / columns` from the
`from_fn` closure in `main`. -/
def sampleX (width columns col : ℕ) : ℕ :=
  unit_width width columns / 2 + col * width / columns

/-- Sample y-coordinate `unit_height / 2 + y * height / (rows * 2)` from the
`from_fn` closure in `main`. -/
def sampleY (height rows row : ℕ) : ℕ :=
  unit_height height rows / 2 + row * height / (rows * 2)

/-! ## Renderer (src/main.rs, `main`, lines 117-137) -/

/-- An 8-bit RGB pixel (`image::Rgb`); channel values are naturals. -/
structure Rgb where
  r : ℕ
  g : ℕ
  b : ℕ
  deriving DecidableEq

/-- One emitted terminal cell: the `SetForegroundColor`, `SetBackgroundColor`
and `Print` arguments of one inner-loop iteration. -/
structure Cell where
  fg : Rgb
  bg : Rgb
  glyph : String
  deriving DecidableEq

/-- The glyph printed for every cell: the lower-half block. -/
def halfBlock : String := "▄"

/-- One terminal row of cells: the inner loop `for col in 0..columns`, at
pixel row `pixRow` (an even row of the sampled image).  The source reads
`background = result.get_pixel(col, row)` and
`foreground = result.get_pixel(col, row + 1)` and prints the half block. -/
def renderRow (img : ℕ → ℕ → Rgb) (columns pixRow : ℕ) : List Cell :=
  (List.range columns).map fun col =>
    { fg := img col (pixRow + 1), bg := img col pixRow, glyph := halfBlock }

/-- The full rendered output: the outer loop
`for row in (0..2 * rows).step_by(2)`, producing one list of cells per
terminal row. -/
def renderImage (img : ℕ → ℕ → Rgb) (columns rows : ℕ) : List (List Cell) :=
  (List.range rows).map fun i => renderRow img columns (2 * i)

/-- Placeholder cell used only as the default of list indexing. -/
def defaultCell : Cell := { fg := ⟨0, 0, 0⟩, bg := ⟨0, 0, 0⟩, glyph := "" }

/-- The cell emitted for terminal row `i`, column `j`. -/
def cellAt (img : ℕ → ℕ → Rgb) (columns rows i j : ℕ) : Cell :=
  ((renderImage img columns rows).getD i []).getD j defaultCell

/-- Concrete sampled image whose odd and even rows differ: pixel at
`(x, y)` has red channel `y`. -/
def exImg : ℕ → ℕ → Rgb := fun _ y => ⟨y, 0, 0⟩

/-! ## Histogram lemmas for the two concrete histogram families -/

theorem sum_ite_single (N j v : ℕ) (hj : j < N) :
    (∑ i ∈ Finset.range N, if i = j then v else 0) = v := by
  rw [Finset.sum_ite_eq' (Finset.range N) j (fun _ => v)]
  simp [hj]

theorem sum_ite_single_mul (N j v : ℕ) (hj : j < N) :
    (∑ i ∈ Finset.range N, if i = j then i * v else 0) = j * v := by
  rw [Finset.sum_ite_eq' (Finset.range N) j (fun i => i * v)]
  simp [hj]

theorem bimodalHist_apply (a b i : ℕ) :
    bimodalHist a b i = (if i = 0 then a else 0) + (if i = 255 then b else 0) := by
  unfold bimodalHist
  split_ifs with h1 h2 <;> omega

theorem bimodal_cum (a b t : ℕ) (ht : t ≤ 254) :
    cumulativeSum (bimodalHist a b) t = a := by
  unfold cumulativeSum
  rw [Finset.sum_congr rfl fun i _ => bimodalHist_apply a b i, Finset.sum_add_distrib,
    sum_ite_single (t + 1) 0 a (by omega),
    Finset.sum_ite_eq' (Finset.range (t + 1)) 255 (fun _ => b)]
  simp [Finset.mem_range]
  omega

theorem bimodal_total (a b : ℕ) : histTotal (bimodalHist a b) = a + b := by
  unfold histTotal
  rw [Finset.sum_congr rfl fun i _ => bimodalHist_apply a b i, Finset.sum_add_distrib,
    sum_ite_single 256 0 a (by omega), sum_ite_single 256 255 b (by omega)]

theorem bimodal_cum255 (a b : ℕ) : cumulativeSum (bimodalHist a b) 255 = a + b := by
  unfold cumulativeSum
  rw [Finset.sum_congr rfl fun i _ => bimodalHist_apply a b i, Finset.sum_add_distrib,
    sum_ite_single 256 0 a (by omega), sum_ite_single 256 255 b (by omega)]

theorem bimodal_sumW0 (a b t : ℕ) (ht : t ≤ 255) :
    sumW0 (bimodalHist a b) t = 0 := by
  unfold sumW0
  apply Finset.sum_eq_zero
  intro i hi
  rw [Finset.mem_range] at hi
  unfold bimodalHist
  rcases eq_or_ne i 0 with rfl | h1
  · simp
  · rcases eq_or_ne i 255 with rfl | h2
    · omega
    · simp [h1, h2]

theorem bimodal_sumTotal (a b : ℕ) : sumTotal (bimodalHist a b) = 255 * b := by
  unfold sumTotal
  rw [Finset.sum_congr rfl (fun i hi => ?_), sum_ite_single_mul 256 255 b (by omega)]
  unfold bimodalHist
  rcases eq_or_ne i 255 with rfl | h2
  · simp
  · rcases eq_or_ne i 0 with rfl | h1
    · simp
    · simp [h1, h2]

theorem bimodal_w0Q (a b t : ℕ) (ht : t ≤ 254) :
    w0Q (bimodalHist a b) t = (a : ℚ) / ((a : ℚ) + (b : ℚ)) := by
  unfold w0Q
  rw [bimodal_cum a b t ht, bimodal_total a b]
  push_cast
  ring

theorem bimodal_w1Q (a b t : ℕ) (ht : t ≤ 254) :
    w1Q (bimodalHist a b) t = (b : ℚ) / ((a : ℚ) + (b : ℚ)) := by
  unfold w1Q
  rw [bimodal_cum a b t ht, bimodal_cum255 a b]
  have h : a + b - a = b := by omega
  rw [h, bimodal_total a b]
  push_cast
  ring

theorem bimodal_qualifies (a b t : ℕ) (ha : 0 < a) (hb : 0 < b) (ht : t ≤ 254) :
    qualifies (bimodalHist a b) t := by
  have haq : (0 : ℚ) < (a : ℚ) := by exact_mod_cast ha
  have hbq : (0 : ℚ) < (b : ℚ) := by exact_mod_cast hb
  have hab : ((a : ℚ) + (b : ℚ)) ≠ 0 := ne_of_gt (by linarith)
  intro hor
  rcases hor with h | h
  · rw [bimodal_w0Q a b t ht, div_eq_zero_iff] at h
    rcases h with h | h
    · exact haq.ne' h
    · exact hab h
  · rw [bimodal_w1Q a b t ht, div_eq_zero_iff] at h
    rcases h with h | h
    · exact hbq.ne' h
    · exact hab h

theorem bimodal_sigma (a b t : ℕ) (ha : 0 < a) (hb : 0 < b) (ht : t ≤ 254) :
    sigmaAt (bimodalHist a b) t = 255 ^ 2 * (a : ℚ) * (b : ℚ) := by
  have haq : (0 : ℚ) < (a : ℚ) := by exact_mod_cast ha
  have hbq' : (0 : ℚ) < (b : ℚ) := by exact_mod_cast hb
  have hab : ((a : ℚ) + (b : ℚ)) ≠ 0 := ne_of_gt (by linarith)
  have hbq : (b : ℚ) ≠ 0 := ne_of_gt hbq'
  unfold sigmaAt
  rw [bimodal_w0Q a b t ht, bimodal_w1Q a b t ht, bimodal_sumW0 a b t (by omega),
    bimodal_sumTotal a b]
  have h : 255 * b - 0 = 255 * b := by omega
  rw [h]
  push_cast
  field_simp
  ring

theorem exHist_cum_le253 (t : ℕ) (ht : t ≤ 253) : cumulativeSum exHist t = 0 := by
  unfold cumulativeSum
  apply Finset.sum_eq_zero
  intro i hi
  rw [Finset.mem_range] at hi
  have h1 : i ≠ 254 := by omega
  have h2 : i ≠ 255 := by omega
  simp [exHist, h1, h2]

theorem exHist_cum254 : cumulativeSum exHist 254 = 1 := by decide

theorem exHist_cum255 : cumulativeSum exHist 255 = 2 := by decide

theorem exHist_total : histTotal exHist = 2 := by decide

theorem exHist_sumW0 (t : ℕ) (ht : t ≤ 254) : sumW0 exHist t = 0 := by
  unfold sumW0
  apply Finset.sum_eq_zero
  intro i hi
  rw [Finset.mem_range] at hi
  have h1 : i ≠ 254 := by omega
  have h2 : i ≠ 255 := by omega
  simp [exHist, h1, h2]

theorem exHist_sumTotal : sumTotal exHist = 509 := by decide

theorem exHist_countBelow (t : ℕ) (ht : t ≤ 254) : countBelow exHist t = 0 := by
  unfold countBelow
  apply Finset.sum_eq_zero
  intro i hi
  rw [Finset.mem_range] at hi
  have h1 : i ≠ 254 := by omega
  have h2 : i ≠ 255 := by omega
  simp [exHist, h1, h2]

theorem exHist_not_qualifies (t : ℕ) (ht : t ≤ 253) : ¬ qualifies exHist t := by
  intro hq
  apply hq
  left
  unfold w0Q
  rw [exHist_cum_le253 t ht]
  simp

theorem exHist_w0Q254 : w0Q exHist 254 = 1 / 2 := by
  unfold w0Q
  rw [exHist_cum254, exHist_total]
  norm_num

theorem exHist_w1Q254 : w1Q exHist 254 = 1 / 2 := by
  unfold w1Q
  rw [exHist_cum254, exHist_cum255, exHist_total]
  norm_num

theorem exHist_qualifies254 : qualifies exHist 254 := by
  intro hor
  rw [exHist_w0Q254, exHist_w1Q254] at hor
  rcases hor with h | h <;> norm_num at h

theorem exHist_sigma254 : sigmaAt exHist 254 = 259081 := by
  unfold sigmaAt
  rw [exHist_w0Q254, exHist_w1Q254, exHist_sumW0 254 le_rfl, exHist_sumTotal]
  norm_num

/-! ## Candidate-list and fold lemmas for the threshold selector -/

theorem candidateList_pairwise : candidateList.Pairwise (· ≤ ·) :=
  (List.pairwise_lt_range' 1 254).imp le_of_lt

theorem mem_candidateList {t : ℕ} : t ∈ candidateList ↔ 1 ≤ t ∧ t ≤ 254 := by
  unfold candidateList
  rw [List.mem_range'_1]
  omega

/-- Invariant of the selector loop: folding `otsuStep` over an ascending list
of candidates either leaves the state untouched (every processed candidate is
skipped or scores at most the running maximum) or ends at the earliest
candidate attaining the strict maximum score above the initial maximum. -/
theorem foldl_otsuStep_spec (hist : ℕ → ℕ) :
    ∀ (l : List ℕ), l.Pairwise (· ≤ ·) → ∀ (s : ℚ × ℕ),
      (l.foldl (otsuStep hist) s = s ∧
        ∀ t ∈ l, qualifies hist t → sigmaAt hist t ≤ s.1) ∨
      (∃ u, u ∈ l ∧ l.foldl (otsuStep hist) s = (sigmaAt hist u, u) ∧
        qualifies hist u ∧ s.1 < sigmaAt hist u ∧
        (∀ t ∈ l, qualifies hist t → sigmaAt hist t ≤ sigmaAt hist u) ∧
        (∀ t ∈ l, qualifies hist t → sigmaAt hist t = sigmaAt hist u → u ≤ t)) := by
  intro l
  induction l with
  | nil =>
    intro _ s
    left
    exact ⟨rfl, by simp⟩
  | cons a l ih =>
    intro hp s
    rw [List.pairwise_cons] at hp
    obtain ⟨ha, hp'⟩ := hp
    rw [List.foldl_cons]
    by_cases hq : w0Q hist a = 0 ∨ w1Q hist a = 0
    · have hstep : otsuStep hist s a = s := by
        unfold otsuStep
        rw [if_pos hq]
      have hnq : ¬ qualifies hist a := fun hcontra => hcontra hq
      rw [hstep]
      rcases ih hp' s with ⟨heq, hb⟩ | ⟨u, hu, heq, hqu, hlt, hmax, hmin⟩
      · left
        refine ⟨heq, ?_⟩
        intro t ht hqt
        rcases List.mem_cons.mp ht with rfl | ht'
        · exact absurd hqt hnq
        · exact hb t ht' hqt
      · right
        refine ⟨u, List.mem_cons_of_mem a hu, heq, hqu, hlt, ?_, ?_⟩
        · intro t ht hqt
          rcases List.mem_cons.mp ht with rfl | ht'
          · exact absurd hqt hnq
          · exact hmax t ht' hqt
        · intro t ht hqt hs
          rcases List.mem_cons.mp ht with rfl | ht'
          · exact absurd hqt hnq
          · exact hmin t ht' hqt hs
    · have hqa : qualifies hist a := hq
      by_cases hlt : s.1 < sigmaAt hist a
      · have hstep : otsuStep hist s a = (sigmaAt hist a, a) := by
          unfold otsuStep
          rw [if_neg hq, if_pos hlt]
        rw [hstep]
        rcases ih hp' (sigmaAt hist a, a) with ⟨heq, hb⟩ | ⟨u, hu, heq, hqu, hlt', hmax, hmin⟩
        · right
          refine ⟨a, List.mem_cons_self a l, heq, hqa, hlt, ?_, ?_⟩
          · intro t ht hqt
            rcases List.mem_cons.mp ht with rfl | ht'
            · exact le_rfl
            · exact hb t ht' hqt
          · intro t ht _ _
            rcases List.mem_cons.mp ht with rfl | ht'
            · exact le_rfl
            · exact ha t ht'
        · right
          have hlt2 : s.1 < sigmaAt hist u := lt_trans hlt hlt'
          refine ⟨u, List.mem_cons_of_mem a hu, heq, hqu, hlt2, ?_, ?_⟩
          · intro t ht hqt
            rcases List.mem_cons.mp ht with rfl | ht'
            · exact le_of_lt hlt'
            · exact hmax t ht' hqt
          · intro t ht hqt hs
            rcases List.mem_cons.mp ht with rfl | ht'
            · exact absurd hs (ne_of_lt hlt')
            · exact hmin t ht' hqt hs
      · have hstep : otsuStep hist s a = s := by
          unfold otsuStep
          rw [if_neg hq, if_neg hlt]
        rw [hstep]
        rcases ih hp' s with ⟨heq, hb⟩ | ⟨u, hu, heq, hqu, hlt', hmax, hmin⟩
        · left
          refine ⟨heq, ?_⟩
          intro t ht hqt
          rcases List.mem_cons.mp ht with rfl | ht'
          · exact not_lt.mp hlt
          · exact hb t ht' hqt
        · right
          refine ⟨u, List.mem_cons_of_mem a hu, heq, hqu, hlt', ?_, ?_⟩
          · intro t ht hqt
            rcases List.mem_cons.mp ht with rfl | ht'
            · exact le_of_lt (lt_of_le_of_lt (not_lt.mp hlt) hlt')
            · exact hmax t ht' hqt
          · intro t ht hqt hs
            rcases List.mem_cons.mp ht with rfl | ht'
            · exact absurd hs (ne_of_lt (lt_of_le_of_lt (not_lt.mp hlt) hlt'))
            · exact hmin t ht' hqt hs

/-- On any strictly bimodal histogram the selector picks candidate 1: every
candidate scores the same positive value, and the strict-greater update keeps
the first one. -/
theorem otsu_bimodal_eq_one (a b : ℕ) (ha : 0 < a) (hb : 0 < b) :
    otsu_threshold (bimodalHist a b) = 1 := by
  have hpos : (0 : ℚ) < 255 ^ 2 * (a : ℚ) * (b : ℚ) := by
    have haq : (0 : ℚ) < (a : ℚ) := by exact_mod_cast ha
    have hbq : (0 : ℚ) < (b : ℚ) := by exact_mod_cast hb
    positivity
  rcases foldl_otsuStep_spec (bimodalHist a b) candidateList candidateList_pairwise (0, 0) with
    ⟨_, hball⟩ | ⟨u, hu, heq, _, _, _, hmin⟩
  · exfalso
    have h1 : (1 : ℕ) ∈ candidateList := mem_candidateList.mpr ⟨le_rfl, by omega⟩
    have := hball 1 h1 (bimodal_qualifies a b 1 ha hb (by omega))
    rw [bimodal_sigma a b 1 ha hb (by omega)] at this
    exact absurd this (not_le.mpr hpos)
  · have hu' := mem_candidateList.mp hu
    have h1 : (1 : ℕ) ∈ candidateList := mem_candidateList.mpr ⟨le_rfl, by omega⟩
    have hle : u ≤ 1 := hmin 1 h1 (bimodal_qualifies a b 1 ha hb (by omega))
      (by rw [bimodal_sigma a b 1 ha hb (by omega), bimodal_sigma a b u ha hb hu'.2])
    have hu1 : u = 1 := by omega
    unfold otsu_threshold otsuFold
    rw [heq, hu1]
    simp

/-- On `exHist` the source selector returns 254: candidates 1 through 253 are
skipped because `cumulative_sum[t]` is zero, and candidate 254 qualifies with
a positive score because `cumulative_sum[254]` already counts the pixel at
luma 254. -/
theorem otsu_exHist_eq : otsu_threshold exHist = 254 := by
  have h254 : (254 : ℕ) ∈ candidateList := mem_candidateList.mpr ⟨by omega, le_rfl⟩
  rcases foldl_otsuStep_spec exHist candidateList candidateList_pairwise (0, 0) with
    ⟨_, hball⟩ | ⟨u, hu, heq, hqu, _, _, _⟩
  · exfalso
    have := hball 254 h254 exHist_qualifies254
    rw [exHist_sigma254] at this
    norm_num at this
  · have hu' := mem_candidateList.mp hu
    have hu254 : u = 254 := by
      by_contra hne
      exact exHist_not_qualifies u (by omega) hqu
    unfold otsu_threshold otsuFold
    rw [heq, hu254]
    simp

/-- A fold whose step fixes every state is the identity. -/
theorem foldl_of_step_id {α β : Type} (g : β → α → β) :
    ∀ (l : List α) (s : β), (∀ t ∈ l, ∀ s2, g s2 t = s2) → l.foldl g s = s := by
  intro l
  induction l with
  | nil => intro s _; rfl
  | cons a l ih =>
    intro s hfix
    rw [List.foldl_cons, hfix a (List.mem_cons_self a l) s]
    exact ih s fun t ht s2 => hfix t (List.mem_cons_of_mem a ht) s2

/-- Under the claim-side reading (class weight = fraction strictly below `t`),
every candidate is skipped on `exHist`: no pixel lies strictly below 254. -/
theorem otsuStepSpec_exHist_skip (t : ℕ) (ht : t ∈ candidateList) :
    ∀ s : ℚ × ℕ, otsuStepSpec exHist s t = s := by
  intro s
  have ht' := mem_candidateList.mp ht
  unfold otsuStepSpec
  rw [exHist_countBelow t ht'.2]
  rw [if_pos]
  left
  simp

/-- The claim-side selector returns 1 on `exHist` (its loop never updates). -/
theorem otsu_spec_exHist_eq : otsu_threshold_spec exHist = 1 := by
  unfold otsu_threshold_spec
  rw [foldl_of_step_id (otsuStepSpec exHist) candidateList ((0 : ℚ), (0 : ℕ))
    (fun t ht s2 => otsuStepSpec_exHist_skip t ht s2)]
  simp

/-! ## Sampling-geometry lemma -/

/-- Core bound for the center-sampling coordinates: with `c` cells over `w`
pixels, `w / c / 2 + i * w / c < w` whenever `i < c` and `1 ≤ w`. -/
theorem sample_div_lt (w c i : ℕ) (hw : 1 ≤ w) (hi : i < c) :
    w / c / 2 + i * w / c < w := by
  have hc : 0 < c := by omega
  have f2 : w / c * c ≤ w := Nat.div_mul_le_self w c
  have f3 : w / c / 2 * 2 ≤ w / c := Nat.div_mul_le_self (w / c) 2
  have f5 : w / c / 2 * c * 2 ≤ w := by
    calc w / c / 2 * c * 2 = w / c / 2 * 2 * c := by ring
    _ ≤ w / c * c := Nat.mul_le_mul_right c f3
    _ ≤ w := f2
  have f1 : i * w + w ≤ w * c := by
    calc i * w + w = (i + 1) * w := by ring
    _ ≤ c * w := Nat.mul_le_mul_right w (by omega)
    _ = w * c := Nat.mul_comm c w
  have hkey : i * w < (w - w / c / 2) * c := by
    rw [Nat.sub_mul]
    omega
  have hdiv : i * w / c < w - w / c / 2 := (Nat.div_lt_iff_lt_mul hc).mpr hkey
  have hV : w / c / 2 ≤ w := le_trans (Nat.div_le_self _ 2) (Nat.div_le_self _ c)
  omega

/-! ## Renderer indexing lemma -/

/-- The cell at terminal row `i`, column `j` of the rendered output: the
even sampled row `2 * i` is the background, the odd sampled row `2 * i + 1`
is the foreground, and the glyph is the lower-half block. -/
theorem cellAt_eq (img : ℕ → ℕ → Rgb) (columns rows i j : ℕ)
    (hi : i < rows) (hj : j < columns) :
    cellAt img columns rows i j =
      { fg := img j (2 * i + 1), bg := img j (2 * i), glyph := halfBlock } := by
  unfold cellAt renderImage renderRow
  rw [List.getD_eq_getElem?_getD, List.getD_eq_getElem?_getD,
    List.getElem?_map, List.getElem?_range hi]
  simp only [Option.map_some', Option.getD_some]
  rw [List.getElem?_map, List.getElem?_range hj]
  simp

/-! ## Claim theorems -/

/-- C1, counterexample: on a sampled image whose rows 0 and 1 differ, the
cell at terminal position (0, 0) does not carry the even-row (top) sample as
its foreground and the odd-row (bottom) sample as its background — the
source pairs them the other way around. -/
theorem renderer_c1_counterexample :
    ¬ ((cellAt exImg 1 1 0 0).fg = exImg 0 0 ∧ (cellAt exImg 1 1 0 0).bg = exImg 0 1) := by
  decide

/-- C1 (amended): for every rendered character cell the renderer emits one
glyph colored with two RGB values, with the top (even-row) sample as the
background color and the bottom (odd-row) sample as the foreground color. -/
theorem renderer_pairs_even_bg_odd_fg (img : ℕ → ℕ → Rgb) (columns rows i j : ℕ)
    (hi : i < rows) (hj : j < columns) :
    (cellAt img columns rows i j).bg = img j (2 * i) ∧
    (cellAt img columns rows i j).fg = img j (2 * i + 1) := by
  rw [cellAt_eq img columns rows i j hi hj]
  exact ⟨rfl, rfl⟩

theorem renderer_pairs_even_bg_odd_fg_witness :
    (cellAt exImg 2 1 0 1).bg = exImg 1 0 ∧ (cellAt exImg 2 1 0 1).fg = exImg 1 1 :=
  renderer_pairs_even_bg_odd_fg exImg 2 1 0 1 (by decide) (by decide)

/-- C2: for every terminal character cell the renderer pairs the even-row
sample as the background color and the odd-row (row + 1) sample as the
foreground color, and emits the single fixed lower-half block glyph. -/
theorem renderer_cell_glyph_and_colors (img : ℕ → ℕ → Rgb) (columns rows i j : ℕ)
    (hi : i < rows) (hj : j < columns) :
    (cellAt img columns rows i j).bg = img j (2 * i) ∧
    (cellAt img columns rows i j).fg = img j (2 * i + 1) ∧
    (cellAt img columns rows i j).glyph = halfBlock := by
  rw [cellAt_eq img columns rows i j hi hj]
  exact ⟨rfl, rfl, rfl⟩

theorem renderer_cell_glyph_and_colors_witness :
    (cellAt exImg 1 1 0 0).bg = exImg 0 0 ∧ (cellAt exImg 1 1 0 0).fg = exImg 0 1 ∧
    (cellAt exImg 1 1 0 0).glyph = halfBlock :=
  renderer_cell_glyph_and_colors exImg 1 1 0 0 (by decide) (by decide)

/-- C3, counterexample: on the histogram with one pixel at luma 254 and one
at luma 255 the source selector returns 254 while the selector described by
the claim (class weight `w0` = fraction of pixels with luma strictly below
`t`, true class means) returns 1; moreover at `t = 254` the source's `w0` is
not the fraction of pixels with luma strictly below `t`. -/
theorem otsu_c3_counterexample :
    otsu_threshold exHist = 254 ∧ otsu_threshold_spec exHist = 1 ∧
    w0Q exHist 254 ≠ (countBelow exHist 254 : ℚ) / (histTotal exHist : ℚ) := by
  refine ⟨otsu_exHist_eq, otsu_spec_exHist_eq, ?_⟩
  rw [exHist_w0Q254, exHist_countBelow 254 le_rfl]
  norm_num

/-- C3 (amended): for every candidate split point `t` in [1, 254] the class
weight `w0` is `cumulative_sum[t] / total` — the fraction of pixels with luma
less than or equal to `t` — and `w1` its complement; candidates where either
weight is zero are skipped; `sigma(t) = w0 * w1 * (u1 - u0)^2` with
`u0 = sum_w0 / w0`, `u1 = (sum_total - sum_w0) / w1`; the returned threshold
is the lowest qualifying `t` maximizing `sigma` under the strict-greater
comparison, and 1 when no candidate attains a positive `sigma`. -/
theorem otsu_threshold_lowest_argmax (hist : ℕ → ℕ) :
    ((∀ t ∈ candidateList, qualifies hist t → sigmaAt hist t ≤ 0) →
      otsu_threshold hist = 1) ∧
    (∀ t₀ ∈ candidateList, qualifies hist t₀ → 0 < sigmaAt hist t₀ →
      ∃ u, u ∈ candidateList ∧ otsu_threshold hist = u ∧ qualifies hist u ∧
        (∀ t ∈ candidateList, qualifies hist t → sigmaAt hist t ≤ sigmaAt hist u) ∧
        (∀ t ∈ candidateList, qualifies hist t → sigmaAt hist t = sigmaAt hist u → u ≤ t)) := by
  rcases foldl_otsuStep_spec hist candidateList candidateList_pairwise (0, 0) with
    ⟨heq, hball⟩ | ⟨u, hu, heq, hqu, hlt, hmax, hmin⟩
  · constructor
    · intro _
      unfold otsu_threshold otsuFold
      rw [heq]
      norm_num
    · intro t₀ ht₀ hq₀ hs₀
      exact absurd (hball t₀ ht₀ hq₀) (not_le.mpr hs₀)
  · constructor
    · intro hall
      exact absurd hlt (not_lt.mpr (hall u hu hqu))
    · intro t₀ _ _ _
      have hu1 : 1 ≤ u := (mem_candidateList.mp hu).1
      refine ⟨u, hu, ?_, hqu, hmax, hmin⟩
      unfold otsu_threshold otsuFold
      rw [heq]
      have hne : u ≠ 0 := by omega
      simp [hne]

theorem otsu_threshold_lowest_argmax_witness :
    ∃ u, u ∈ candidateList ∧ otsu_threshold (bimodalHist 1 1) = u ∧
      qualifies (bimodalHist 1 1) u ∧
      (∀ t ∈ candidateList, qualifies (bimodalHist 1 1) t →
        sigmaAt (bimodalHist 1 1) t ≤ sigmaAt (bimodalHist 1 1) u) ∧
      (∀ t ∈ candidateList, qualifies (bimodalHist 1 1) t →
        sigmaAt (bimodalHist 1 1) t = sigmaAt (bimodalHist 1 1) u → u ≤ t) :=
  (otsu_threshold_lowest_argmax (bimodalHist 1 1)).2 1 (mem_candidateList.mpr (by omega))
    (bimodal_qualifies 1 1 1 (by omega) (by omega) (by omega))
    (by rw [bimodal_sigma 1 1 1 (by omega) (by omega) (by omega)]; norm_num)

/-- C4: on a 1-by-1 pixel image with 1 terminal column and 1 usable terminal
row the planner yields a grid with 0 rows (violating the required minimum of
1-by-1), so the subsequent `unit_height = height / (rows * 2)` divides by
zero in the source. -/
theorem plannedGrid_one_by_one_divides_by_zero :
    plannedGrid 1 1 1 1 = (1, 0) ∧ (plannedGrid 1 1 1 1).2 * 2 = 0 := by
  decide

/-- C5: for every histogram with positive total pixel count the returned
threshold lies in [1, 255] and in particular is never 0. -/
theorem otsu_threshold_range (hist : ℕ → ℕ) (h : 0 < histTotal hist) :
    1 ≤ otsu_threshold hist ∧ otsu_threshold hist ≤ 255 := by
  rcases foldl_otsuStep_spec hist candidateList candidateList_pairwise (0, 0) with
    ⟨heq, _⟩ | ⟨u, hu, heq, _, _, _, _⟩
  · unfold otsu_threshold otsuFold
    rw [heq]
    norm_num
  · have hu' := mem_candidateList.mp hu
    have hne : u ≠ 0 := by omega
    unfold otsu_threshold otsuFold
    rw [heq]
    simp [hne]
    omega

theorem otsu_threshold_range_witness :
    1 ≤ otsu_threshold exHist ∧ otsu_threshold exHist ≤ 255 :=
  otsu_threshold_range exHist (by decide)

/-- C6: for positive terminal and image dimensions the planned grid never
exceeds the terminal in either axis, and each branch returns exactly the
truncating-division formula of the source. -/
theorem plannedGrid_fits (columns rows width height : ℕ) (hc : 0 < columns)
    (hr : 0 < rows) (hw : 0 < width) (hh : 0 < height) :
    (plannedGrid columns rows width height).1 ≤ columns ∧
    (plannedGrid columns rows width height).2 ≤ rows ∧
    (rows * 2 * width < columns * height →
      plannedGrid columns rows width height = (rows * 2 * width / height, rows)) ∧
    (¬ rows * 2 * width < columns * height →
      plannedGrid columns rows width height = (columns, columns * height / width / 2)) := by
  unfold plannedGrid
  by_cases hlt : rows * 2 * width < columns * height
  · rw [if_pos hlt]
    exact ⟨le_of_lt ((Nat.div_lt_iff_lt_mul hh).mpr hlt), le_rfl, fun _ => rfl,
      fun hn => absurd hlt hn⟩
  · rw [if_neg hlt]
    have hge : columns * height ≤ rows * 2 * width := not_lt.mp hlt
    have h2 : columns * height / width ≤ rows * 2 * width / width := Nat.div_le_div_right hge
    have h3 : rows * 2 * width / width = rows * 2 := Nat.mul_div_cancel (rows * 2) hw
    have h4 : columns * height / width / 2 ≤ rows * 2 / 2 := Nat.div_le_div_right (by omega)
    have h5 : rows * 2 / 2 = rows := Nat.mul_div_cancel rows (by omega)
    exact ⟨le_rfl, by omega, fun hcon => absurd hcon hlt, fun _ => rfl⟩

theorem plannedGrid_fits_witness :
    (plannedGrid 4 3 10 10).1 ≤ 4 ∧ (plannedGrid 4 3 10 10).2 ≤ 3 ∧
    (3 * 2 * 10 < 4 * 10 → plannedGrid 4 3 10 10 = (3 * 2 * 10 / 10, 3)) ∧
    (¬ 3 * 2 * 10 < 4 * 10 → plannedGrid 4 3 10 10 = (4, 4 * 10 / 10 / 2)) :=
  plannedGrid_fits 4 3 10 10 (by decide) (by decide) (by decide) (by decide)

/-- C7: on a perfectly bimodal histogram with positive counts at lumas 0 and
255 the selected threshold lies strictly between 0 and 255, and scaling both
counts by any positive factor leaves the selection unchanged. -/
theorem otsu_bimodal_between_and_scale_invariant (a b k : ℕ)
    (ha : 0 < a) (hb : 0 < b) (hk : 0 < k) :
    0 < otsu_threshold (bimodalHist a b) ∧ otsu_threshold (bimodalHist a b) < 255 ∧
    otsu_threshold (bimodalHist (k * a) (k * b)) = otsu_threshold (bimodalHist a b) := by
  have h1 := otsu_bimodal_eq_one a b ha hb
  have h2 := otsu_bimodal_eq_one (k * a) (k * b) (Nat.mul_pos hk ha) (Nat.mul_pos hk hb)
  rw [h1, h2]
  norm_num

theorem otsu_bimodal_between_and_scale_invariant_witness :
    0 < otsu_threshold (bimodalHist 2 3) ∧ otsu_threshold (bimodalHist 2 3) < 255 ∧
    otsu_threshold (bimodalHist (5 * 2) (5 * 3)) = otsu_threshold (bimodalHist 2 3) :=
  otsu_bimodal_between_and_scale_invariant 2 3 5 (by decide) (by decide) (by decide)

/-- C8: the cluster count handed to the superpixel clustering step equals
columns times rows times 2 of the planned grid, which is exactly the number
of entries of the sampled image (columns by 2-times-rows). -/
theorem clusterK_eq_grid_times_two (columns rows width height : ℕ) :
    clusterK columns rows width height =
      (plannedGrid columns rows width height).1 *
        (plannedGrid columns rows width height).2 * 2 ∧
    clusterK columns rows width height =
      (sampledDims columns rows width height).1 *
        (sampledDims columns rows width height).2 := by
  refine ⟨rfl, ?_⟩
  unfold clusterK sampledDims
  ring

/-- C9: for every grid with at least one column and one row over an image
with positive dimensions, every center-sampling coordinate of the
`from_fn` closure stays strictly inside the image. -/
theorem sample_coords_inbounds (width height columns rows col row : ℕ)
    (hw : 1 ≤ width) (hh : 1 ≤ height) (hc : 1 ≤ columns) (hr : 1 ≤ rows)
    (hcol : col < columns) (hrow : row < rows * 2) :
    sampleX width columns col < width ∧ sampleY height rows row < height := by
  unfold sampleX sampleY unit_width unit_height
  exact ⟨sample_div_lt width columns col hw hcol, sample_div_lt height (rows * 2) row hh hrow⟩

theorem sample_coords_inbounds_witness :
    sampleX 5 2 1 < 5 ∧ sampleY 5 1 1 < 5 :=
  sample_coords_inbounds 5 5 2 1 1 1 (by decide) (by decide) (by decide) (by decide)
    (by decide) (by decide)

/-- C10: exactly 2 terminal rows are reserved; the subtraction is wrapping
`u32` arithmetic, so a terminal reporting 0 or 1 rows wraps to a huge row
count, a terminal reporting 2 rows leaves 0 rows — on which the planner
returns the degenerate grid (0, 0), whose unit divisors are zero in the
source — and a terminal reporting at least 3 rows leaves at least 1 row. -/
theorem reserved_rows_and_underflow :
    reservedRows = 2 ∧
    rowsAfterReserve 0 = 2 ^ 32 - 2 ∧
    rowsAfterReserve 1 = 2 ^ 32 - 1 ∧
    rowsAfterReserve 2 = 0 ∧
    (∀ columns width height : ℕ, 1 ≤ columns → 1 ≤ height →
      plannedGrid columns (rowsAfterReserve 2) width height = (0, 0)) ∧
    (∀ r : ℕ, 3 ≤ r → r < 2 ^ 32 → rowsAfterReserve r = r - 2 ∧ 1 ≤ rowsAfterReserve r) := by
  refine ⟨rfl, by decide, by decide, by decide, ?_, ?_⟩
  · intro columns width height hc hh
    have h0 : rowsAfterReserve 2 = 0 := by decide
    rw [h0]
    unfold plannedGrid
    rw [if_pos]
    · simp
    · have hpos : 0 < columns * height := Nat.mul_pos (by omega) (by omega)
      simpa using hpos
  · intro r h3 hlt
    have hr : rowsAfterReserve r = r - 2 := by
      unfold rowsAfterReserve reservedRows
      have h : r + 2 ^ 32 - 2 = 2 ^ 32 + (r - 2) := by omega
      rw [h, Nat.add_mod_left]
      exact Nat.mod_eq_of_lt (by omega)
    exact ⟨hr, by omega⟩

theorem reserved_rows_and_underflow_witness :
    plannedGrid 4 (rowsAfterReserve 2) 7 5 = (0, 0) ∧ rowsAfterReserve 5 = 3 := by
  constructor
  · exact reserved_rows_and_underflow.2.2.2.2.1 4 7 5 (by decide) (by decide)
  · have h := reserved_rows_and_underflow.2.2.2.2.2 5 (by decide) (by decide)
    omega

end Pixpix
